import Mathlib

/-!
Verification of the configuration-reconciliation core of `cc-mcp-admin`
(`src/main.rs`), a CLI that aggregates MCP server records scattered across
a global registry file (`~/.claude.json`) and per-project `.mcp.json`
override files, detects divergence between copies of the same named record,
and installs/uninstalls records for the current project.

Strings are modelled as `List Char` (`Str`); Rust's `str::replace`,
`str::contains` and lexicographic `Ord` are given explicit executable
models (`replaceStr`, `strContains`, `strLe`).  `HashMap` values are
modelled as association lists, with Rust's `HashMap` equality modelled by
`envEq` (length check plus one-sided lookup agreement, exactly as in the
`PartialEq` impl).  JSON documents (`serde_json::Value`) are modelled by
the inductive `Json`, with `serde_json`'s `Index`/`IndexMut`/`get`
semantics modelled by `jGet`, `jIndexN` and `jSetIn`.
-/

/-- Strings, modelled as lists of characters. -/
abbrev Str := List Char

/-- Model of Rust `str::contains` for string patterns: `strContains s pat`
is true iff `pat` occurs as a contiguous substring of `s`. -/
def strContains : Str → Str → Bool
  | [], pat => pat.isEmpty
  | c :: rest, pat => pat.isPrefixOf (c :: rest) || strContains rest pat

/-- Worker for the model of Rust `str::replace`, structurally recursive on
the subject string.  With `skip = 0` we are scanning: a match of `pat` at
the current position emits `rep` and schedules the remaining
`pat.length - 1` matched characters for consumption; with `skip > 0` we are
still consuming characters of a match already emitted.  The empty-pattern
case matches Rust (`"ab".replace("", "x") == "xaxbx"`). -/
def repGo (pat rep : Str) : Nat → Str → Str
  | skip, [] => if skip == 0 && pat.isEmpty then rep else []
  | 0, c :: rest =>
    if pat.isPrefixOf (c :: rest) then
      if pat.isEmpty then rep ++ c :: repGo pat rep 0 rest
      else rep ++ repGo pat rep (pat.length - 1) rest
    else c :: repGo pat rep 0 rest
  | skip + 1, _ :: rest => repGo pat rep skip rest

/-- Model of Rust `str::replace` on `List Char` strings: replace every
non-overlapping occurrence of `pat` in `s` by `rep`, scanning left to
right.  `repGo`'s `skip` counter tracks the tail of a match already
emitted, so the definition is structurally recursive. -/
def replaceStr (s pat rep : Str) : Str :=
  repGo pat rep 0 s

/-- Struct `McpServer` (src/main.rs:43-55): one server configuration record. -/
structure McpServer where
  server_type : Option Str
  command : Option Str
  url : Option Str
  args : List Str
  env : List (Str × Str)
deriving DecidableEq, Repr, Inhabited

/-- Struct `McpEntry` (src/main.rs:87-91): a record plus its provenance. -/
structure McpEntry where
  server : McpServer
  source_project : Str
deriving DecidableEq, Repr, Inhabited

/-- Lookup in an association list modelling a Rust `HashMap` (first match;
maps built from `HashMap`s have unique keys, so this is the unique match). -/
def hmLookup {β : Type} (m : List (Str × β)) (k : Str) : Option β :=
  (m.find? (fun kv => kv.1 == k)).map (fun kv => kv.2)

/-- Rust `HashMap::contains_key`. -/
def containsKey {β : Type} (m : List (Str × β)) (k : Str) : Bool :=
  m.any (fun kv => kv.1 == k)

/-- Rust `HashMap` equality (the `PartialEq` impl): equal lengths and every
key/value pair of the left map is found in the right map. -/
def envEq (a b : List (Str × Str)) : Bool :=
  a.length == b.length && a.all (fun kv => hmLookup b kv.1 == some kv.2)

/-- The fixed placeholder token used by `normalize_args`. -/
def PLACEHOLDER : Str := "<PROJECT>".toList

/-- Function `normalize_args` (src/main.rs:190-194): replace every occurrence of the
record's own project path by the placeholder in every argument. -/
def normalize_args (args : List Str) (project_path : Str) : List Str :=
  args.map (fun arg => replaceStr arg project_path PLACEHOLDER)

/-- Function `configs_differ` (src/main.rs:196-210): false for zero or one record;
otherwise true iff some later record differs from the first in command,
url, normalized args, or env. -/
def configs_differ (entries : List McpEntry) : Bool :=
  match entries with
  | [] => false
  | [_] => false
  | first :: rest =>
    let first_args := normalize_args first.server.args first.source_project
    rest.any (fun e =>
      let args := normalize_args e.server.args e.source_project
      e.server.command != first.server.command
        || e.server.url != first.server.url
        || args != first_args
        || !(envEq e.server.env first.server.env))

/-- Resolver failures (the two `eprintln!`+`exit(1)` paths of
src/main.rs:427-457), each carrying the enumerated candidate
source projects, plus a marker for the (unreachable) out-of-bounds panic
on `&entries[0]` when the entry sequence is empty. -/
inductive ResolveError where
  | NoMatchingSource (available : List Str)
  | AmbiguousSource (available : List Str)
  | EmptyEntry
deriving DecidableEq, Repr

/-- The Resolver (src/main.rs:427-457): with a hint, pick the first record
whose `source_project` contains the hint; with no hint, fail as ambiguous
when there are several records that genuinely differ, else pick the first. -/
def resolve (entries : List McpEntry) (hint : Option Str) : Except ResolveError McpEntry :=
  match hint with
  | some from_pattern =>
    match entries.find? (fun e => strContains e.source_project from_pattern) with
    | some e => .ok e
    | none => .error (.NoMatchingSource (entries.map (fun e => e.source_project)))
  | none =>
    if entries.length > 1 ∧ configs_differ entries = true then
      .error (.AmbiguousSource (entries.map (fun e => e.source_project)))
    else
      match entries with
      | e :: _ => .ok e
      | [] => .error .EmptyEntry

example : strContains "abcdef".toList "cde".toList = true := by decide
example : strContains "abcdef".toList "cf".toList = false := by decide
example : replaceStr "ab/p/cd/p/e".toList "/p/".toList "<X>".toList
    = "ab<X>cd<X>e".toList := by decide
example : replaceStr "aaa".toList "aa".toList "b".toList = "ba".toList := by decide

/-! ### Path-substitution equivalence (C1)

`fillTemplate t p` interleaves the literal chunks `t` with the path `p`;
`gapStarts t p` lists the offsets at which those interleaved copies of `p`
begin; `exactOccs t p` checks that the occurrences of `p` in the filled
string are exactly the interleaved copies — the formal reading of "the
paths occupy the same positions" in both records. -/

/-- Does `p` occur in `s` at offset `i`? -/
def matchAt (s p : Str) (i : Nat) : Bool := p.isPrefixOf (s.drop i)

/-- Interleave literal chunks with a path string. -/
def fillTemplate : List Str → Str → Str
  | [], _ => []
  | [c], _ => c
  | c :: c2 :: cs, p => c ++ p ++ fillTemplate (c2 :: cs) p

/-- Offsets at which the interleaved copies of `p` start in
`fillTemplate t p`. -/
def gapStarts : List Str → Str → List Nat
  | [], _ => []
  | [_], _ => []
  | c :: c2 :: cs, p =>
    c.length :: (gapStarts (c2 :: cs) p).map (fun i => i + (c.length + p.length))

/-- All offsets at which `p` occurs in `s`. -/
def occList (s p : Str) : List Nat :=
  (List.range (s.length + 1)).filter (fun i => matchAt s p i)

/-- Property that `p` is non-empty and occurs in `fillTemplate t p` exactly at the
designated gap offsets. -/
def exactOccs (t : List Str) (p : Str) : Bool :=
  !p.isEmpty && (occList (fillTemplate t p) p == gapStarts t p)

theorem isPre_self_append (p s : Str) : p.isPrefixOf (p ++ s) = true := by
  induction p with
  | nil => simp [List.isPrefixOf]
  | cons a as ih => simp [List.isPrefixOf, ih]

theorem isPre_nil_eq_false (p : Str) (hp : p ≠ []) : p.isPrefixOf [] = false := by
  cases p with
  | nil => exact absurd rfl hp
  | cons a as => rfl

theorem mem_occList_iff (s p : Str) (i : Nat) (hp : p ≠ []) :
    i ∈ occList s p ↔ matchAt s p i = true := by
  unfold occList
  rw [List.mem_filter, List.mem_range]
  constructor
  · exact fun h => h.2
  · intro h
    refine ⟨?_, h⟩
    by_contra hbig
    have hdrop : s.drop i = [] := List.drop_eq_nil_of_le (by omega)
    rw [matchAt, hdrop, isPre_nil_eq_false p hp] at h
    exact Bool.false_ne_true h

theorem repGo_skip (pat rep t s : Str) :
    repGo pat rep t.length (t ++ s) = repGo pat rep 0 s := by
  induction t with
  | nil => rfl
  | cons c t' ih => simpa [repGo] using ih

theorem replaceStr_match_head (s pat rep : Str) (hp : pat ≠ []) :
    replaceStr (pat ++ s) pat rep = rep ++ replaceStr s pat rep := by
  cases pat with
  | nil => exact absurd rfl hp
  | cons c ps =>
    show repGo (c :: ps) rep 0 (c :: (ps ++ s)) = rep ++ repGo (c :: ps) rep 0 s
    have h1 : (c :: ps).isPrefixOf (c :: (ps ++ s)) = true := isPre_self_append (c :: ps) s
    simp only [repGo, h1, if_true, List.isEmpty_cons, Bool.false_eq_true, if_false,
      List.length_cons, Nat.add_sub_cancel]
    rw [repGo_skip (c :: ps) rep ps s]

theorem replaceStr_no_match_walk (c s pat rep : Str) (hp : pat ≠ [])
    (h : ∀ i, i < c.length → matchAt (c ++ s) pat i = false) :
    replaceStr (c ++ s) pat rep = c ++ replaceStr s pat rep := by
  induction c with
  | nil => rfl
  | cons x xs ih =>
    have h0 : pat.isPrefixOf (x :: (xs ++ s)) = false := by
      simpa [matchAt] using h 0 (by simp)
    show repGo pat rep 0 (x :: (xs ++ s)) = (x :: xs) ++ replaceStr s pat rep
    cases pat with
    | nil => exact absurd rfl hp
    | cons b bs =>
      simp only [repGo, h0, Bool.false_eq_true, if_false]
      have ihres := ih (fun i hi => by
        simpa [matchAt, List.drop_succ_cons] using
          h (i + 1) (by simpa using Nat.succ_lt_succ hi))
      simpa [replaceStr] using ihres

theorem replaceStr_no_match (s pat rep : Str) (hp : pat ≠ [])
    (h : ∀ i, matchAt s pat i = false) :
    replaceStr s pat rep = s := by
  have hw := replaceStr_no_match_walk s [] pat rep hp (fun i _ => by simpa using h i)
  have hnil : replaceStr [] pat rep = [] := by
    cases pat with
    | nil => exact absurd rfl hp
    | cons b bs => rfl
  simpa [hnil] using hw

theorem fill_replace_aux (t : List Str) (p rep : Str) (hp : p ≠ [])
    (hocc : ∀ i, matchAt (fillTemplate t p) p i = true ↔ i ∈ gapStarts t p) :
    replaceStr (fillTemplate t p) p rep = fillTemplate t rep := by
  induction t with
  | nil =>
    have hnil : replaceStr [] p rep = [] := by
      cases p with
      | nil => exact absurd rfl hp
      | cons b bs => rfl
    simpa [fillTemplate] using hnil
  | cons c cs ih =>
    cases cs with
    | nil =>
      have hno : ∀ i, matchAt c p i = false := by
        intro i
        rcases Bool.dichotomy (matchAt c p i) with hf | ht
        · exact hf
        · have hm : matchAt (fillTemplate [c] p) p i = true := ht
          have := (hocc i).mp hm
          simp [gapStarts] at this
      simpa [fillTemplate] using replaceStr_no_match c p rep hp hno
    | cons c2 cs' =>
      have hplen : 0 < p.length := by
        cases p with
        | nil => exact absurd rfl hp
        | cons b bs => simp
      have hwhole : fillTemplate (c :: c2 :: cs') p
          = c ++ (p ++ fillTemplate (c2 :: cs') p) := by
        simp [fillTemplate]
      -- no occurrence of `p` starts strictly inside `c`
      have hno : ∀ i, i < c.length →
          matchAt (c ++ (p ++ fillTemplate (c2 :: cs') p)) p i = false := by
        intro i hi
        rcases Bool.dichotomy (matchAt (c ++ (p ++ fillTemplate (c2 :: cs') p)) p i)
          with hf | ht
        · exact hf
        · exfalso
          have hm : matchAt (fillTemplate (c :: c2 :: cs') p) p i = true := by
            rw [hwhole]; exact ht
          have := (hocc i).mp hm
          simp only [gapStarts, List.mem_cons, List.mem_map] at this
          rcases this with h1 | ⟨j, _, h2⟩ <;> omega
      -- the occurrence facts transfer to the tail template
      have hshift : ∀ i, matchAt (fillTemplate (c :: c2 :: cs') p) p
          (c.length + (p.length + i)) = matchAt (fillTemplate (c2 :: cs') p) p i := by
        intro i
        rw [hwhole, matchAt, matchAt, List.drop_append (p.length + i),
          List.drop_append i]
      have hocc' : ∀ i, matchAt (fillTemplate (c2 :: cs') p) p i = true
          ↔ i ∈ gapStarts (c2 :: cs') p := by
        intro i
        rw [← hshift i, hocc (c.length + (p.length + i))]
        simp only [gapStarts, List.mem_cons, List.mem_map]
        constructor
        · rintro (h1 | ⟨j, hj, h2⟩)
          · omega
          · have hji : j = i := by omega
            subst hji; exact hj
        · intro hi
          exact Or.inr ⟨i, hi, by omega⟩
      rw [hwhole, replaceStr_no_match_walk c _ p rep hp hno,
        replaceStr_match_head _ p rep hp, ih hocc']
      simp [fillTemplate]

theorem exactOccs_spec (t : List Str) (p : Str) (h : exactOccs t p = true) :
    p ≠ [] ∧ ∀ i, matchAt (fillTemplate t p) p i = true ↔ i ∈ gapStarts t p := by
  unfold exactOccs at h
  rw [Bool.and_eq_true, beq_iff_eq] at h
  have hp : p ≠ [] := by
    intro hnil
    subst hnil
    simp at h
  refine ⟨hp, fun i => ?_⟩
  rw [← h.2, mem_occList_iff _ _ _ hp]

/-- Normalization collapses a filled template to the placeholder-filled
template, provided the path occurrences are exactly the designated ones. -/
theorem replace_fillTemplate (t : List Str) (p : Str) (h : exactOccs t p = true) :
    replaceStr (fillTemplate t p) p PLACEHOLDER = fillTemplate t PLACEHOLDER := by
  obtain ⟨hp, hocc⟩ := exactOccs_spec t p h
  exact fill_replace_aux t p PLACEHOLDER hp hocc

/-- C1: two records identical except that their arguments embed their own
`source_project` at the same template positions normalize to equal argument
lists, so `configs_differ` on the pair is false. -/
theorem configs_differ_path_subst (s1 s2 : McpServer) (p1 p2 : Str)
    (ts : List (List Str))
    (_hst : s1.server_type = s2.server_type)
    (hc : s2.command = s1.command)
    (hu : s2.url = s1.url)
    (he : envEq s2.env s1.env = true)
    (h1 : s1.args = ts.map (fun t => fillTemplate t p1))
    (h2 : s2.args = ts.map (fun t => fillTemplate t p2))
    (hx1 : ∀ t ∈ ts, exactOccs t p1 = true)
    (hx2 : ∀ t ∈ ts, exactOccs t p2 = true) :
    normalize_args s1.args p1 = normalize_args s2.args p2
    ∧ configs_differ [⟨s1, p1⟩, ⟨s2, p2⟩] = false := by
  have hnorm : normalize_args s1.args p1 = normalize_args s2.args p2 := by
    rw [h1, h2]
    unfold normalize_args
    rw [List.map_map, List.map_map]
    apply List.map_congr_left
    intro t ht
    simp only [Function.comp]
    rw [replace_fillTemplate t p1 (hx1 t ht), replace_fillTemplate t p2 (hx2 t ht)]
  refine ⟨hnorm, ?_⟩
  simp [configs_differ, hc, hu, he, hnorm.symm]

/-- Witness for C1: the same `--dir=<path>/data` argument deployed under two
different project roots. -/
theorem configs_differ_path_subst_witness :
    normalize_args ["--dir=/home/alpha/data".toList] "/home/alpha".toList
      = normalize_args ["--dir=/home/beta/data".toList] "/home/beta".toList
    ∧ configs_differ
        [⟨⟨some "stdio".toList, some "npx".toList, none,
            ["--dir=/home/alpha/data".toList], []⟩, "/home/alpha".toList⟩,
         ⟨⟨some "stdio".toList, some "npx".toList, none,
            ["--dir=/home/beta/data".toList], []⟩, "/home/beta".toList⟩] = false :=
  configs_differ_path_subst
    ⟨some "stdio".toList, some "npx".toList, none, ["--dir=/home/alpha/data".toList], []⟩
    ⟨some "stdio".toList, some "npx".toList, none, ["--dir=/home/beta/data".toList], []⟩
    "/home/alpha".toList "/home/beta".toList
    [["--dir=".toList, "/data".toList]]
    rfl rfl rfl (by decide) (by decide) (by decide) (by decide) (by decide)

/-! ### The JSON document model (Registry Mutator, C4 and C6)

`Json` models `serde_json::Value`; objects are association lists in
document order.  `jGet` models `Value::get(&str)` (None on non-objects),
`jIndexN` models the non-mutating `Index` impl (`Null` on missing keys or
non-objects), and `jSetIn` models a chained `IndexMut` assignment
`v[k1][k2]...[kn] = x`: intermediate missing keys are inserted, `Null`
values are converted to fresh objects, and any other non-object value
panics (modelled as `none`). -/

inductive Json where
  | null : Json
  | bool (b : Bool) : Json
  | num (n : Int) : Json
  | str (s : Str) : Json
  | arr (xs : List Json) : Json
  | obj (fields : List (Str × Json)) : Json

instance : Inhabited Json := ⟨.null⟩

/-- The two fixed keys of the global registry document. -/
def projectsKey : Str := "projects".toList

/-- The per-project server-map key. -/
def mcpServersKey : Str := "mcpServers".toList

/-- Lookup of a key in an object's field list (first match). -/
def jLookup (fs : List (Str × Json)) (k : Str) : Option Json :=
  (fs.find? (fun kv => kv.1 == k)).map (fun kv => kv.2)

/-- Model of `serde_json::Map::insert` on a field list: replace the first binding of
`k` in place, or append a new binding. -/
def objSet : List (Str × Json) → Str → Json → List (Str × Json)
  | [], k, v => [(k, v)]
  | (k', v') :: rest, k, v =>
    if k' == k then (k, v) :: rest else (k', v') :: objSet rest k v

/-- Model of `serde_json::Map::remove` on a field list. -/
def objRemove (fs : List (Str × Json)) (k : Str) : List (Str × Json) :=
  fs.eraseP (fun kv => kv.1 == k)

/-- Model of `Value::get(&str)`: `none` unless the value is an object containing the
key. -/
def jGet (v : Json) (k : Str) : Option Json :=
  match v with
  | .obj fs => jLookup fs k
  | _ => none

/-- The non-mutating `Index` impl on `Value`: `Null` for missing keys and
non-objects. -/
def jIndexN (v : Json) (k : Str) : Json :=
  (jGet v k).getD .null

/-- Chained `IndexMut` assignment `v[k1]...[kn] = x`.  Missing intermediate
keys are inserted, `Null` is converted to an object, any other non-object
value panics (`none`). -/
def jSetIn : Json → List Str → Json → Option Json
  | _, [], x => some x
  | .obj fs, k :: rest, x =>
    (jSetIn ((jLookup fs k).getD .null) rest x).map (fun s => .obj (objSet fs k s))
  | .null, k :: rest, x =>
    (jSetIn .null rest x).map (fun s => .obj [(k, s)])
  | _, _ :: _, _ => none

/-- Read a value at a key path via `jGet`. -/
def jPath : Json → List Str → Option Json
  | v, [] => some v
  | v, k :: rest => (jGet v k).bind (fun w => jPath w rest)

/-- Is the key path writable by a chained `IndexMut` assignment?  True iff
every value traversed on the way is an object or `Null` (or missing). -/
def writable : Json → List Str → Bool
  | _, [] => true
  | .obj fs, k :: rest => writable ((jLookup fs k).getD .null) rest
  | .null, _ :: _ => true
  | _, _ :: _ => false

/-- Number of bindings of a key in an object's field list. -/
def countKey (fs : List (Str × Json)) (k : Str) : Nat :=
  (fs.filter (fun kv => kv.1 == k)).length

/-- Serialization of an `McpServer` by serde (src/main.rs:43-55): `None`
options serialize as `null`, `server_type` is renamed to `"type"`. -/
def serverToJson (s : McpServer) : Json :=
  .obj [("type".toList, (s.server_type.map .str).getD .null),
        ("command".toList, (s.command.map .str).getD .null),
        ("url".toList, (s.url.map .str).getD .null),
        ("args".toList, .arr (s.args.map .str)),
        ("env".toList, .obj (s.env.map (fun kv => (kv.1, .str kv.2))))]

/-- The argument rewriting of `add_mcp_server` (src/main.rs:459-466):
every argument containing the source project path has it replaced by the
destination (current) project path. -/
def adapt_server (server : McpServer) (source_project cwd : Str) : McpServer :=
  { server with
    args := server.args.map (fun arg =>
      if strContains arg source_project then replaceStr arg source_project cwd
      else arg) }

/-- The registry write of `add_mcp_server` (src/main.rs:468-496): ensure
`projects`, the project object and its `mcpServers` map exist, then assign
the serialized server at `projects -> cwd -> mcpServers -> name`.  `none`
models a `serde_json` indexing panic. -/
def addToRegistry (json : Json) (cwd name : Str) (sv : Json) : Option Json :=
  (if (jGet json projectsKey).isNone then
      jSetIn json [projectsKey] (.obj [])
    else some json).bind (fun j1 =>
  (if (jGet (jIndexN j1 projectsKey) cwd).isNone then
      jSetIn j1 [projectsKey, cwd] (.obj [(mcpServersKey, .obj [])])
    else some j1).bind (fun j2 =>
  (if (jGet (jIndexN (jIndexN j2 projectsKey) cwd) mcpServersKey).isNone then
      jSetIn j2 [projectsKey, cwd, mcpServersKey] (.obj [])
    else some j2).bind (fun j3 =>
  jSetIn j3 [projectsKey, cwd, mcpServersKey, name] sv)))

/-- Install (src/main.rs:459-496): adapt the chosen record's arguments to
the destination project and write it into the global registry document. -/
def install (json : Json) (cwd name : Str) (entry : McpEntry) : Option Json :=
  addToRegistry json cwd name (serverToJson (adapt_server entry.server entry.source_project cwd))

/-- Uninstall (src/main.rs:546-561): remove `name` from
`projects -> cwd -> mcpServers` if that path leads through objects;
otherwise leave the document unchanged. -/
def removeFromRegistry (json : Json) (cwd name : Str) : Json :=
  match json with
  | .obj fs =>
    match jLookup fs projectsKey with
    | some (.obj pfs) =>
      match jLookup pfs cwd with
      | some (.obj cfs) =>
        match jLookup cfs mcpServersKey with
        | some (.obj mfs) =>
          .obj (objSet fs projectsKey
            (.obj (objSet pfs cwd
              (.obj (objSet cfs mcpServersKey
                (.obj (objRemove mfs name)))))))
        | _ => json
      | _ => json
    | _ => json
  | _ => json

@[simp] theorem jLookup_nil (k : Str) : jLookup [] k = none := rfl

@[simp] theorem objSet_lookup_self (fs : List (Str × Json)) (k : Str) (v : Json) :
    jLookup (objSet fs k v) k = some v := by
  induction fs with
  | nil => simp [objSet, jLookup, List.find?]
  | cons kv rest ih =>
    by_cases hk : kv.1 == k
    · obtain ⟨k', v'⟩ := kv
      simp only at hk
      simp [objSet, hk, jLookup, List.find?]
    · obtain ⟨k', v'⟩ := kv
      simp only at hk
      simp only [objSet, hk, Bool.false_eq_true, if_false]
      simpa [jLookup, List.find?, hk] using ih

theorem objSet_lookup_ne (fs : List (Str × Json)) (k k' : Str) (v : Json)
    (h : k' ≠ k) : jLookup (objSet fs k v) k' = jLookup fs k' := by
  have hbeq : (k == k') = false := by
    rw [beq_eq_false_iff_ne]
    exact fun he => h he.symm
  induction fs with
  | nil => simp [objSet, jLookup, List.find?, hbeq]
  | cons kv rest ih =>
    obtain ⟨k1, v1⟩ := kv
    by_cases hk : k1 == k
    · have hkeq : k1 = k := by simpa using hk
      subst hkeq
      simp [objSet, jLookup, List.find?, hbeq]
    · simp only [objSet, hk, Bool.false_eq_true, if_false]
      by_cases hk1 : k1 == k'
      · simp [jLookup, List.find?, hk1]
      · simpa [jLookup, List.find?, hk1] using ih

theorem objSet_eq_self (fs : List (Str × Json)) (k : Str) (v : Json)
    (h : jLookup fs k = some v) : objSet fs k v = fs := by
  induction fs with
  | nil => simp [jLookup] at h
  | cons kv rest ih =>
    obtain ⟨k1, v1⟩ := kv
    by_cases hk : k1 == k
    · have hkeq : k1 = k := by simpa using hk
      subst hkeq
      simp [jLookup, List.find?, beq_self_eq_true] at h
      simp [objSet, h]
    · simp only [objSet, hk, Bool.false_eq_true, if_false]
      simp only [jLookup, List.find?, hk] at h
      rw [ih (by simpa [jLookup] using h)]

theorem countKey_objSet (fs : List (Str × Json)) (k : Str) (v : Json) :
    countKey (objSet fs k v) k = if countKey fs k = 0 then 1 else countKey fs k := by
  induction fs with
  | nil => simp [objSet, countKey]
  | cons kv rest ih =>
    obtain ⟨k1, v1⟩ := kv
    by_cases hk : k1 == k
    · simp [objSet, hk, countKey, List.filter]
    · simp only [objSet, hk, Bool.false_eq_true, if_false]
      have h1 : countKey ((k1, v1) :: objSet rest k v) k = countKey (objSet rest k v) k := by
        simp [countKey, List.filter_cons, hk]
      have h2 : countKey ((k1, v1) :: rest) k = countKey rest k := by
        simp [countKey, List.filter_cons, hk]
      rw [h1, h2, ih]

theorem jSetIn_jPath (path : List Str) (v x w : Json)
    (h : jSetIn v path x = some w) : jPath w path = some x := by
  induction path generalizing v w with
  | nil =>
    simp only [jSetIn, Option.some_inj] at h
    subst h; rfl
  | cons k rest ih =>
    cases v with
    | obj fs =>
      rcases hs : jSetIn ((jLookup fs k).getD Json.null) rest x with _ | s
      · rw [jSetIn, hs] at h
        simp at h
      · rw [jSetIn, hs] at h
        have hw : Json.obj (objSet fs k s) = w := by simpa using h
        subst hw
        simp only [jPath, jGet, objSet_lookup_self, Option.some_bind]
        exact ih _ _ hs
    | null =>
      rcases hs : jSetIn Json.null rest x with _ | s
      · rw [jSetIn, hs] at h
        simp at h
      · rw [jSetIn, hs] at h
        have hw : Json.obj [(k, s)] = w := by simpa using h
        subst hw
        simp only [jPath, jGet, jLookup, List.find?, beq_self_eq_true,
          Option.map_some, Option.some_bind]
        exact ih _ _ hs
    | bool b =>
      have hn : jSetIn (Json.bool b) (k :: rest) x = none := rfl
      rw [hn] at h; exact Option.noConfusion h
    | num n =>
      have hn : jSetIn (Json.num n) (k :: rest) x = none := rfl
      rw [hn] at h; exact Option.noConfusion h
    | str s =>
      have hn : jSetIn (Json.str s) (k :: rest) x = none := rfl
      rw [hn] at h; exact Option.noConfusion h
    | arr xs =>
      have hn : jSetIn (Json.arr xs) (k :: rest) x = none := rfl
      rw [hn] at h; exact Option.noConfusion h

@[simp] theorem jLookup_cons_self (k : Str) (v : Json) (fs : List (Str × Json)) :
    jLookup ((k, v) :: fs) k = some v := by
  simp [jLookup, List.find?]

theorem addToRegistry_isSome (json : Json) (cwd name : Str) (sv : Json)
    (h : writable json [projectsKey, cwd, mcpServersKey, name] = true) :
    (addToRegistry json cwd name sv).isSome = true := by
  cases json with
  | null =>
    simp [addToRegistry, jGet, jIndexN, jSetIn, objSet, Option.bind]
  | bool b => simp [writable] at h
  | num n => simp [writable] at h
  | str s => simp [writable] at h
  | arr xs => simp [writable] at h
  | obj fs =>
    rcases h1 : jLookup fs projectsKey with _ | v1 <;>
      simp only [writable, h1, Option.getD_some, Option.getD_none] at h
    · -- no `projects` key: every level is created
      simp [addToRegistry, jGet, jIndexN, jSetIn, objSet, Option.bind, h1]
    · cases v1 with
      | null =>
        simp [addToRegistry, jGet, jIndexN, jSetIn, objSet, Option.bind, h1]
      | bool b => simp [writable] at h
      | num n => simp [writable] at h
      | str s => simp [writable] at h
      | arr xs => simp [writable] at h
      | obj pfs =>
        rcases h2 : jLookup pfs cwd with _ | v2 <;>
          simp only [writable, h2, Option.getD_some, Option.getD_none] at h
        · simp [addToRegistry, jGet, jIndexN, jSetIn, objSet, Option.bind, h1, h2]
        · cases v2 with
          | null =>
            simp [addToRegistry, jGet, jIndexN, jSetIn, objSet, Option.bind, h1, h2]
          | bool b => simp [writable] at h
          | num n => simp [writable] at h
          | str s => simp [writable] at h
          | arr xs => simp [writable] at h
          | obj cfs =>
            rcases h3 : jLookup cfs mcpServersKey with _ | v3 <;>
              simp only [writable, h3, Option.getD_some, Option.getD_none] at h
            · simp [addToRegistry, jGet, jIndexN, jSetIn, objSet, Option.bind,
                h1, h2, h3]
            · cases v3 with
              | null =>
                simp [addToRegistry, jGet, jIndexN, jSetIn, objSet, Option.bind,
                  h1, h2, h3]
              | bool b => simp [writable] at h
              | num n => simp [writable] at h
              | str s => simp [writable] at h
              | arr xs => simp [writable] at h
              | obj mfs =>
                simp [addToRegistry, jGet, jIndexN, jSetIn, objSet, Option.bind,
                  h1, h2, h3]

theorem addToRegistry_last (json : Json) (cwd name : Str) (sv w : Json)
    (h : addToRegistry json cwd name sv = some w) :
    ∃ j3, jSetIn j3 [projectsKey, cwd, mcpServersKey, name] sv = some w := by
  unfold addToRegistry at h
  rcases hs1 : (if (jGet json projectsKey).isNone then
      jSetIn json [projectsKey] (.obj []) else some json) with _ | j1 <;>
    rw [hs1] at h
  · simp at h
  simp only [Option.some_bind] at h
  rcases hs2 : (if (jGet (jIndexN j1 projectsKey) cwd).isNone then
      jSetIn j1 [projectsKey, cwd] (.obj [(mcpServersKey, .obj [])])
    else some j1) with _ | j2 <;> rw [hs2] at h
  · simp at h
  simp only [Option.some_bind] at h
  rcases hs3 : (if (jGet (jIndexN (jIndexN j2 projectsKey) cwd)
      mcpServersKey).isNone then
      jSetIn j2 [projectsKey, cwd, mcpServersKey] (.obj [])
    else some j2) with _ | j3 <;> rw [hs3] at h
  · simp at h
  simp only [Option.some_bind] at h
  exact ⟨j3, h⟩

theorem addToRegistry_existing (fs pfs cfs mfs0 : List (Str × Json))
    (cwd name : Str) (sv : Json)
    (h1 : jLookup fs projectsKey = some (.obj pfs))
    (h2 : jLookup pfs cwd = some (.obj cfs))
    (h3 : jLookup cfs mcpServersKey = some (.obj mfs0)) :
    addToRegistry (.obj fs) cwd name sv
      = some (.obj (objSet fs projectsKey
          (.obj (objSet pfs cwd
            (.obj (objSet cfs mcpServersKey
              (.obj (objSet mfs0 name sv)))))))) := by
  simp [addToRegistry, jGet, jIndexN, jSetIn, h1, h2, h3, Option.some_bind]

/-- C4: Install rewrites every argument containing the source project path,
succeeds whenever the destination path of the document is writable
(creating `projects`, the project object and its server map as needed),
stores the adapted serialized record at
`projects -> destination -> mcpServers -> name`, and overwrites an existing
binding of that name in place rather than duplicating it. -/
theorem install_spec (json : Json) (cwd name : Str) (entry : McpEntry) :
    ((adapt_server entry.server entry.source_project cwd).args
        = entry.server.args.map (fun arg =>
            if strContains arg entry.source_project then
              replaceStr arg entry.source_project cwd
            else arg))
    ∧ (writable json [projectsKey, cwd, mcpServersKey, name] = true →
        (install json cwd name entry).isSome = true)
    ∧ (∀ w, install json cwd name entry = some w →
        jPath w [projectsKey, cwd, mcpServersKey, name]
          = some (serverToJson (adapt_server entry.server entry.source_project cwd)))
    ∧ (∀ w mfs0, install json cwd name entry = some w →
        jPath json [projectsKey, cwd, mcpServersKey] = some (.obj mfs0) →
        jPath w [projectsKey, cwd, mcpServersKey]
          = some (.obj (objSet mfs0 name
              (serverToJson (adapt_server entry.server entry.source_project cwd))))
        ∧ (countKey mfs0 name ≤ 1 →
            countKey (objSet mfs0 name
              (serverToJson (adapt_server entry.server entry.source_project cwd)))
              name = 1)) := by
  refine ⟨rfl, ?_, ?_, ?_⟩
  · intro h
    exact addToRegistry_isSome json cwd name _ h
  · intro w hw
    obtain ⟨j3, hj3⟩ := addToRegistry_last json cwd name _ w hw
    exact jSetIn_jPath _ _ _ _ hj3
  · intro w mfs0 hw hpath
    cases json with
    | null => simp [jPath, jGet] at hpath
    | bool b => simp [jPath, jGet] at hpath
    | num n => simp [jPath, jGet] at hpath
    | str s => simp [jPath, jGet] at hpath
    | arr xs => simp [jPath, jGet] at hpath
    | obj fs =>
      simp only [jPath, jGet] at hpath
      rcases hl1 : jLookup fs projectsKey with _ | v1 <;> rw [hl1] at hpath
      · simp at hpath
      simp only [Option.some_bind] at hpath
      cases v1 with
      | null => simp [jGet] at hpath
      | bool b => simp [jGet] at hpath
      | num n => simp [jGet] at hpath
      | str s => simp [jGet] at hpath
      | arr xs => simp [jGet] at hpath
      | obj pfs =>
        simp only [jGet] at hpath
        rcases hl2 : jLookup pfs cwd with _ | v2 <;> rw [hl2] at hpath
        · simp at hpath
        simp only [Option.some_bind] at hpath
        cases v2 with
        | null => simp [jPath, jGet] at hpath
        | bool b => simp [jPath, jGet] at hpath
        | num n => simp [jPath, jGet] at hpath
        | str s => simp [jPath, jGet] at hpath
        | arr xs => simp [jPath, jGet] at hpath
        | obj cfs =>
          simp only [jPath, jGet] at hpath
          rcases hl3 : jLookup cfs mcpServersKey with _ | v3 <;> rw [hl3] at hpath
          · simp at hpath
          simp only [Option.some_bind, jPath] at hpath
          have hv3 : v3 = Json.obj mfs0 := by simpa using hpath
          subst hv3
          have hadd := addToRegistry_existing fs pfs cfs mfs0 cwd name
            (serverToJson (adapt_server entry.server entry.source_project cwd))
            hl1 hl2 hl3
          unfold install at hw
          rw [hadd] at hw
          have hwval := Option.some_inj.mp hw
          subst hwval
          constructor
          · simp [jPath, jGet, objSet_lookup_self, Option.some_bind]
          · intro hle
            rw [countKey_objSet]
            split <;> omega

/-- Witness for C4: installing into a document whose destination project
already binds the name; the binding is overwritten in place and readable at
the expected path. -/
theorem install_spec_witness :
    (install
        (Json.obj [(projectsKey, Json.obj [("/dst".toList, Json.obj [(mcpServersKey,
          Json.obj [("serena".toList, Json.null)])])])])
        "/dst".toList "serena".toList
        ⟨⟨some "stdio".toList, some "npx".toList, none, ["--dir=/src/data".toList],
          [("K".toList, "V".toList)]⟩, "/src".toList⟩).isSome = true
    ∧ jPath
        (Json.obj [(projectsKey, Json.obj [("/dst".toList, Json.obj [(mcpServersKey,
          Json.obj [("serena".toList, serverToJson (adapt_server
            ⟨some "stdio".toList, some "npx".toList, none, ["--dir=/src/data".toList],
              [("K".toList, "V".toList)]⟩ "/src".toList "/dst".toList))])])])])
        [projectsKey, "/dst".toList, mcpServersKey, "serena".toList]
      = some (serverToJson (adapt_server
          ⟨some "stdio".toList, some "npx".toList, none, ["--dir=/src/data".toList],
            [("K".toList, "V".toList)]⟩ "/src".toList "/dst".toList))
    ∧ jPath
        (Json.obj [(projectsKey, Json.obj [("/dst".toList, Json.obj [(mcpServersKey,
          Json.obj [("serena".toList, serverToJson (adapt_server
            ⟨some "stdio".toList, some "npx".toList, none, ["--dir=/src/data".toList],
              [("K".toList, "V".toList)]⟩ "/src".toList "/dst".toList))])])])])
        [projectsKey, "/dst".toList, mcpServersKey]
      = some (Json.obj (objSet [("serena".toList, Json.null)] "serena".toList
          (serverToJson (adapt_server
            ⟨some "stdio".toList, some "npx".toList, none, ["--dir=/src/data".toList],
              [("K".toList, "V".toList)]⟩ "/src".toList "/dst".toList))))
    ∧ countKey (objSet [("serena".toList, Json.null)] "serena".toList
          (serverToJson (adapt_server
            ⟨some "stdio".toList, some "npx".toList, none, ["--dir=/src/data".toList],
              [("K".toList, "V".toList)]⟩ "/src".toList "/dst".toList)))
        "serena".toList = 1 := by
  have h := install_spec
    (Json.obj [(projectsKey, Json.obj [("/dst".toList, Json.obj [(mcpServersKey,
      Json.obj [("serena".toList, Json.null)])])])])
    "/dst".toList "serena".toList
    ⟨⟨some "stdio".toList, some "npx".toList, none, ["--dir=/src/data".toList],
      [("K".toList, "V".toList)]⟩, "/src".toList⟩
  exact ⟨h.2.1 (by decide), h.2.2.1 _ rfl, (h.2.2.2 _ _ rfl rfl).1,
    (h.2.2.2 _ _ rfl rfl).2 (by decide)⟩

theorem jLookup_eq_none_of_not_mem (fs : List (Str × Json)) (k : Str)
    (h : k ∉ fs.map Prod.fst) : jLookup fs k = none := by
  induction fs with
  | nil => rfl
  | cons kv rest ih =>
    obtain ⟨k1, v1⟩ := kv
    simp only [List.map_cons, List.mem_cons, not_or] at h
    have hne : (k1 == k) = false := beq_eq_false_iff_ne.mpr (fun he => h.1 he.symm)
    simp only [jLookup, List.find?, hne]
    exact ih h.2

theorem objRemove_not_found (fs : List (Str × Json)) (k : Str)
    (h : jLookup fs k = none) : objRemove fs k = fs := by
  induction fs with
  | nil => rfl
  | cons kv rest ih =>
    obtain ⟨k1, v1⟩ := kv
    by_cases hk : k1 == k
    · simp [jLookup, List.find?, hk] at h
    · simp only [jLookup, List.find?, hk] at h
      simp only [objRemove, List.eraseP_cons, hk, cond_false]
      rw [show (rest.eraseP fun kv => kv.1 == k) = objRemove rest k from rfl,
        ih (by simpa [jLookup] using h)]

theorem jLookup_objRemove_ne (fs : List (Str × Json)) (k k' : Str)
    (h : k' ≠ k) : jLookup (objRemove fs k) k' = jLookup fs k' := by
  induction fs with
  | nil => rfl
  | cons kv rest ih =>
    obtain ⟨k1, v1⟩ := kv
    by_cases hk : k1 == k
    · have hkeq : k1 = k := by simpa using hk
      subst hkeq
      have hrm : objRemove ((k1, v1) :: rest) k1 = rest := by
        simp [objRemove, List.eraseP_cons]
      have hne : (k1 == k') = false := beq_eq_false_iff_ne.mpr (fun he => h he.symm)
      rw [hrm]
      simp [jLookup, List.find?, hne]
    · have hrm : objRemove ((k1, v1) :: rest) k = (k1, v1) :: objRemove rest k := by
        simp [objRemove, List.eraseP_cons, hk]
      rw [hrm]
      by_cases hk1 : k1 == k'
      · simp [jLookup, List.find?, hk1]
      · simp only [jLookup, List.find?, hk1]
        exact ih

theorem jLookup_objRemove_self (fs : List (Str × Json)) (k : Str)
    (h : (fs.map Prod.fst).Nodup) : jLookup (objRemove fs k) k = none := by
  induction fs with
  | nil => rfl
  | cons kv rest ih =>
    obtain ⟨k1, v1⟩ := kv
    simp only [List.map_cons, List.nodup_cons] at h
    by_cases hk : k1 == k
    · have hkeq : k1 = k := by simpa using hk
      subst hkeq
      have hrm : objRemove ((k1, v1) :: rest) k1 = rest := by
        simp [objRemove, List.eraseP_cons]
      rw [hrm]
      exact jLookup_eq_none_of_not_mem rest k1 h.1
    · have hrm : objRemove ((k1, v1) :: rest) k = (k1, v1) :: objRemove rest k := by
        simp [objRemove, List.eraseP_cons, hk]
      rw [hrm]
      simp only [jLookup, List.find?, hk]
      exact ih h.2

theorem removeFromRegistry_noop (json : Json) (cwd name : Str)
    (h : ∀ mfs, jPath json [projectsKey, cwd, mcpServersKey] ≠ some (.obj mfs)) :
    removeFromRegistry json cwd name = json := by
  unfold removeFromRegistry
  split
  · split
    · split
      · split
        · rename_i h1 o1 l1 h2 o2 l2 h3
          exact absurd
            (show jPath _ [projectsKey, cwd, mcpServersKey] = some (.obj l2) by
              simp [jPath, jGet, h1, h2, h3])
            (h l2)
        · rfl
      · rfl
    · rfl
  · rfl

/-- C6: Uninstall removes at most the `name` binding of `cwd`'s server map:
it is the identity when the path is missing or the name is absent, and in
the successful case every other top-level field, every other project, every
other field of the project object and every other server name read back
unchanged, while the targeted name reads back as absent. -/
theorem uninstall_spec (json : Json) (cwd name : Str) :
    ((¬ ∃ mfs, jPath json [projectsKey, cwd, mcpServersKey] = some (.obj mfs)) →
        removeFromRegistry json cwd name = json)
    ∧ (∀ mfs, jPath json [projectsKey, cwd, mcpServersKey] = some (.obj mfs) →
        jLookup mfs name = none → removeFromRegistry json cwd name = json)
    ∧ (∀ k, k ≠ projectsKey →
        jGet (removeFromRegistry json cwd name) k = jGet json k)
    ∧ (∀ q, q ≠ cwd →
        jPath (removeFromRegistry json cwd name) [projectsKey, q]
          = jPath json [projectsKey, q])
    ∧ (∀ k, k ≠ mcpServersKey →
        jPath (removeFromRegistry json cwd name) [projectsKey, cwd, k]
          = jPath json [projectsKey, cwd, k])
    ∧ (∀ nm, nm ≠ name →
        jPath (removeFromRegistry json cwd name) [projectsKey, cwd, mcpServersKey, nm]
          = jPath json [projectsKey, cwd, mcpServersKey, nm])
    ∧ (∀ mfs, jPath json [projectsKey, cwd, mcpServersKey] = some (.obj mfs) →
        (mfs.map Prod.fst).Nodup →
        jPath (removeFromRegistry json cwd name) [projectsKey, cwd, mcpServersKey, name]
          = none) := by
  by_cases hex : ∃ mfs, jPath json [projectsKey, cwd, mcpServersKey] = some (.obj mfs)
  · obtain ⟨mfs, hpath⟩ := hex
    -- the document must be objects all the way down to the server map
    obtain ⟨fs, pfs, cfs, hjson, hl1, hl2, hl3⟩ :
        ∃ fs pfs cfs, json = Json.obj fs
          ∧ jLookup fs projectsKey = some (.obj pfs)
          ∧ jLookup pfs cwd = some (.obj cfs)
          ∧ jLookup cfs mcpServersKey = some (.obj mfs) := by
      cases json with
      | null => simp [jPath, jGet] at hpath
      | bool b => simp [jPath, jGet] at hpath
      | num n => simp [jPath, jGet] at hpath
      | str s => simp [jPath, jGet] at hpath
      | arr xs => simp [jPath, jGet] at hpath
      | obj fs =>
        simp only [jPath, jGet] at hpath
        rcases hl1 : jLookup fs projectsKey with _ | v1 <;> rw [hl1] at hpath
        · simp at hpath
        simp only [Option.some_bind] at hpath
        cases v1 with
        | null => simp [jGet] at hpath
        | bool b => simp [jGet] at hpath
        | num n => simp [jGet] at hpath
        | str s => simp [jGet] at hpath
        | arr xs => simp [jGet] at hpath
        | obj pfs =>
          simp only [jGet] at hpath
          rcases hl2 : jLookup pfs cwd with _ | v2 <;> rw [hl2] at hpath
          · simp at hpath
          simp only [Option.some_bind] at hpath
          cases v2 with
          | null => simp [jPath, jGet] at hpath
          | bool b => simp [jPath, jGet] at hpath
          | num n => simp [jPath, jGet] at hpath
          | str s => simp [jPath, jGet] at hpath
          | arr xs => simp [jPath, jGet] at hpath
          | obj cfs =>
            simp only [jPath, jGet] at hpath
            rcases hl3 : jLookup cfs mcpServersKey with _ | v3 <;> rw [hl3] at hpath
            · simp at hpath
            simp only [Option.some_bind, jPath] at hpath
            have hv3 : v3 = Json.obj mfs := by simpa using hpath
            subst hv3
            exact ⟨fs, pfs, cfs, rfl, hl1, hl2, hl3⟩
    subst hjson
    have hpath' : jPath (Json.obj fs) [projectsKey, cwd, mcpServersKey]
        = some (.obj mfs) := by
      simp [jPath, jGet, hl1, hl2, hl3]
    have hrm : removeFromRegistry (Json.obj fs) cwd name
        = .obj (objSet fs projectsKey
            (.obj (objSet pfs cwd
              (.obj (objSet cfs mcpServersKey
                (.obj (objRemove mfs name))))))) := by
      simp [removeFromRegistry, hl1, hl2, hl3]
    refine ⟨fun hne => absurd ⟨mfs, hpath'⟩ hne, ?_, ?_, ?_, ?_, ?_, ?_⟩
    · -- absent name: storage no-op
      intro mfs' hm hnone
      rw [hpath'] at hm
      have hmm : mfs' = mfs := by simpa using hm.symm
      subst hmm
      rw [hrm, objRemove_not_found mfs' name hnone, objSet_eq_self cfs _ _ hl3,
        objSet_eq_self pfs _ _ hl2, objSet_eq_self fs _ _ hl1]
    · intro k hk
      rw [hrm]
      simp [jGet, objSet_lookup_ne fs projectsKey k _ hk]
    · intro q hq
      rw [hrm]
      simp [jPath, jGet, hl1, objSet_lookup_self,
        objSet_lookup_ne pfs cwd q _ hq]
    · intro k hk
      rw [hrm]
      simp [jPath, jGet, hl1, hl2, objSet_lookup_self,
        objSet_lookup_ne cfs mcpServersKey k _ hk]
    · intro nm hnm
      rw [hrm]
      simp [jPath, jGet, hl1, hl2, hl3, objSet_lookup_self,
        jLookup_objRemove_ne mfs name nm hnm]
    · intro mfs' hm hnodup
      rw [hpath'] at hm
      have hmm : mfs' = mfs := by simpa using hm.symm
      subst hmm
      rw [hrm]
      simp [jPath, jGet, objSet_lookup_self,
        jLookup_objRemove_self mfs' name hnodup]
  · have hrm := removeFromRegistry_noop json cwd name (by
      intro mfs hm
      exact hex ⟨mfs, hm⟩)
    refine ⟨fun _ => hrm, fun mfs hm _ => absurd ⟨mfs, hm⟩ hex,
      fun k _ => by rw [hrm], fun q _ => by rw [hrm], fun k _ => by rw [hrm],
      fun nm _ => by rw [hrm], fun mfs hm _ => absurd ⟨mfs, hm⟩ hex⟩

/-- A concrete registry document: an unknown top-level field, two projects,
two server names under `/a`. -/
def sampleRegistry : Json :=
  .obj [("version".toList, Json.num 3),
        (projectsKey, Json.obj
          [("/a".toList, Json.obj
             [(mcpServersKey, Json.obj
                [("foo".toList, Json.str "x".toList),
                 ("bar".toList, Json.null)]),
              ("extra".toList, Json.bool true)]),
           ("/b".toList, Json.obj
             [(mcpServersKey, Json.obj [("foo".toList, Json.num 7)])])])]

/-- Witness for C6: removing `foo` from `/a` keeps the unknown field, the
other project, the project's other field and the other name readable
unchanged, removes exactly `foo`, is a no-op for an absent name, and is the
identity for an unknown project. -/
theorem uninstall_spec_witness :
    removeFromRegistry sampleRegistry "/c".toList "foo".toList = sampleRegistry
    ∧ removeFromRegistry sampleRegistry "/a".toList "zzz".toList = sampleRegistry
    ∧ jGet (removeFromRegistry sampleRegistry "/a".toList "foo".toList)
        "version".toList = jGet sampleRegistry "version".toList
    ∧ jPath (removeFromRegistry sampleRegistry "/a".toList "foo".toList)
        [projectsKey, "/b".toList]
      = jPath sampleRegistry [projectsKey, "/b".toList]
    ∧ jPath (removeFromRegistry sampleRegistry "/a".toList "foo".toList)
        [projectsKey, "/a".toList, "extra".toList]
      = jPath sampleRegistry [projectsKey, "/a".toList, "extra".toList]
    ∧ jPath (removeFromRegistry sampleRegistry "/a".toList "foo".toList)
        [projectsKey, "/a".toList, mcpServersKey, "bar".toList]
      = jPath sampleRegistry [projectsKey, "/a".toList, mcpServersKey, "bar".toList]
    ∧ jPath (removeFromRegistry sampleRegistry "/a".toList "foo".toList)
        [projectsKey, "/a".toList, mcpServersKey, "foo".toList] = none := by
  refine ⟨?_, ?_, ?_, ?_, ?_, ?_, ?_⟩
  · refine (uninstall_spec sampleRegistry "/c".toList "foo".toList).1 ?_
    rintro ⟨mfs, hm⟩
    have hnone : jPath sampleRegistry [projectsKey, "/c".toList, mcpServersKey]
        = none := rfl
    rw [hnone] at hm
    exact Option.noConfusion hm
  · exact (uninstall_spec sampleRegistry "/a".toList "zzz".toList).2.1
      [("foo".toList, Json.str "x".toList), ("bar".toList, Json.null)] rfl rfl
  · exact (uninstall_spec sampleRegistry "/a".toList "foo".toList).2.2.1
      "version".toList (by decide)
  · exact (uninstall_spec sampleRegistry "/a".toList "foo".toList).2.2.2.1
      "/b".toList (by decide)
  · exact (uninstall_spec sampleRegistry "/a".toList "foo".toList).2.2.2.2.1
      "extra".toList (by decide)
  · exact (uninstall_spec sampleRegistry "/a".toList "foo".toList).2.2.2.2.2.1
      "bar".toList (by decide)
  · exact (uninstall_spec sampleRegistry "/a".toList "foo".toList).2.2.2.2.2.2
      [("foo".toList, Json.str "x".toList), ("bar".toList, Json.null)] rfl (by decide)

/-! ### Aggregation (C5) and the command surface (C7, C8) -/

/-- Rust `String` ordering: lexicographic by scalar value (UTF-8 byte order
coincides with code-point order). -/
def strLe : Str → Str → Bool
  | [], _ => true
  | _ :: _, [] => false
  | a :: as, b :: bs => if a = b then strLe as bs else decide (a < b)

/-- The `sort_by(|a, b| a.source_project.cmp(&b.source_project))` comparator
(src/main.rs:157). -/
def entryLe (a b : McpEntry) : Bool := strLe a.source_project b.source_project

/-- Insertion of an element into a sorted run, keeping it before every
element it ties with that arrived later (stability). -/
def insertSorted (x : McpEntry) : List McpEntry → List McpEntry
  | [] => [x]
  | y :: ys => if entryLe x y then x :: y :: ys else y :: insertSorted x ys

/-- Model of `Vec::sort_by` with comparator `entryLe`: a stable sort
(Rust's `sort_by` is stable). -/
def sortEntries : List McpEntry → List McpEntry
  | [] => []
  | x :: xs => insertSorted x (sortEntries xs)

/-- The entries pushed for one server name by iterating one source (a list
of `(project path, its server map)` in iteration order). -/
def entriesFor (src : List (Str × List (Str × McpServer))) (name : Str) :
    List McpEntry :=
  src.flatMap (fun ps => (ps.2.filter (fun ns => ns.1 == name)).map
    (fun ns => ⟨ns.2, ps.1⟩))

/-- Function `collect_all_mcp_servers` (src/main.rs:119-161), viewed at one server
name: push the `~/.claude.json` entries (first loop), then the `.mcp.json`
entries (second loop), then sort by `source_project`.  `claude` and
`mcpFiles` carry each source in its (arbitrary) iteration order. -/
def collect_all_mcp_servers
    (claude mcpFiles : List (Str × List (Str × McpServer))) (name : Str) :
    List McpEntry :=
  sortEntries (entriesFor claude name ++ entriesFor mcpFiles name)

/-- Model of `HashMap::extend` used by `get_current_project_mcp_servers`:
lookups and membership prefer the extending map `b`. -/
def hmExtend (a b : List (Str × McpServer)) : List (Str × McpServer) := b ++ a

/-- Function `get_current_project_mcp_servers` (src/main.rs:163-187): start empty,
extend with the global registry's entry for `cwd` (when present), then
extend with the local `.mcp.json` servers (when the file exists and
parses). -/
def get_current_project_mcp_servers
    (claude : List (Str × List (Str × McpServer)))
    (localMcp : Option (List (Str × McpServer))) (cwd : Str) :
    List (Str × McpServer) :=
  let servers : List (Str × McpServer) := []
  let servers := match hmLookup claude cwd with
    | some config => hmExtend servers config
    | none => servers
  match localMcp with
  | some m => hmExtend servers m
  | none => servers

/-- Outcome of `remove_mcp_server` (src/main.rs:513-568).  `notEnabled` is
the `eprintln!` + `exit(1)` path; `overrideNote` is the local `.mcp.json`
note followed by `return` (exit status zero, no file written); `removed w`
writes document `w` back to `~/.claude.json`. -/
inductive RemoveResult where
  | notEnabled
  | overrideNote
  | removed (newJson : Json)

/-- Function `remove_mcp_server` (src/main.rs:513-568).  `localMcp` is the parsed
local `.mcp.json` (`none` when missing or unparseable). -/
def remove_mcp_server (claude : List (Str × List (Str × McpServer)))
    (localMcp : Option (List (Str × McpServer))) (json : Json)
    (cwd name : Str) : RemoveResult :=
  let current_servers := get_current_project_mcp_servers claude localMcp cwd
  if !(containsKey current_servers name) then .notEnabled
  else
    match localMcp with
    | some mcp_json =>
      if containsKey mcp_json name then .overrideNote
      else .removed (removeFromRegistry json cwd name)
    | none => .removed (removeFromRegistry json cwd name)

/-- Outcome of `add_mcp_server` (src/main.rs:399-511).  `alreadyEnabled` is
the `Note:` + `return` path (exit status zero, the registry file is never
read, modified or written); `nameNotFound`, `noMatchingSource` and
`ambiguousSource` are `exit(1)` paths; `added w` writes `w` back;
`panicked` models a `serde_json` indexing panic. -/
inductive AddResult where
  | alreadyEnabled
  | nameNotFound
  | noMatchingSource (available : List Str)
  | ambiguousSource (available : List Str)
  | added (newJson : Json)
  | panicked

/-- Function `add_mcp_server` (src/main.rs:399-511): no-op note when already
enabled, error when unknown, then Resolver followed by Install. -/
def add_mcp_server (claude mcpFiles : List (Str × List (Str × McpServer)))
    (localMcp : Option (List (Str × McpServer))) (json : Json)
    (cwd name : Str) (fromHint : Option Str) : AddResult :=
  let current_servers := get_current_project_mcp_servers claude localMcp cwd
  if containsKey current_servers name then .alreadyEnabled
  else
    let entries := collect_all_mcp_servers claude mcpFiles name
    if entries.isEmpty then .nameNotFound
    else
      match resolve entries fromHint with
      | .error (.NoMatchingSource av) => .noMatchingSource av
      | .error (.AmbiguousSource av) => .ambiguousSource av
      | .error .EmptyEntry => .panicked
      | .ok entry =>
        match install json cwd name entry with
        | some w => .added w
        | none => .panicked

/-- C7: a remove request for a name defined in the read-only local
`.mcp.json` is refused with the manual-edit note (`overrideNote`: no file
is written and the process returns with status zero); among enabled names,
the refusal happens exactly when the name is defined in the override
source. -/
theorem remove_override_spec
    (claude : List (Str × List (Str × McpServer)))
    (localMcp : Option (List (Str × McpServer))) (json : Json)
    (cwd name : Str) :
    (∀ m, localMcp = some m → containsKey m name = true →
      containsKey ((hmLookup claude cwd).getD []) name = false →
      remove_mcp_server claude localMcp json cwd name = .overrideNote)
    ∧ (containsKey (get_current_project_mcp_servers claude localMcp cwd) name
          = true →
        (remove_mcp_server claude localMcp json cwd name = .overrideNote
          ↔ ∃ m, localMcp = some m ∧ containsKey m name = true)) := by
  constructor
  · intro m hl hm _hreg
    subst hl
    have hcur : containsKey
        (get_current_project_mcp_servers claude (some m) cwd) name = true := by
      unfold get_current_project_mcp_servers hmExtend
      cases hcl : hmLookup claude cwd <;>
        simp only [containsKey, List.any_append] <;>
        simp [containsKey] at hm <;> simp [hm]
    unfold remove_mcp_server
    simp [hcur, hm]
  · intro hen
    constructor
    · intro hres
      cases hl : localMcp with
      | none =>
        subst hl
        simp [remove_mcp_server, hen] at hres
      | some m =>
        subst hl
        cases hcm : containsKey m name with
        | true => exact ⟨m, rfl, hcm⟩
        | false => simp [remove_mcp_server, hen, hcm] at hres
    · rintro ⟨m, hl, hm⟩
      subst hl
      simp [remove_mcp_server, hen, hm]

/-- Witness for C7: `srv` is defined only in the local override file of
project `/w`; removal is refused with the note, and the refusal condition
is exactly override membership. -/
theorem remove_override_spec_witness :
    remove_mcp_server [("/w".toList, [])]
        (some [("srv".toList, ⟨none, some "npx".toList, none, [], []⟩)])
        Json.null "/w".toList "srv".toList = .overrideNote
    ∧ (remove_mcp_server [("/w".toList, [])]
        (some [("srv".toList, ⟨none, some "npx".toList, none, [], []⟩)])
        Json.null "/w".toList "srv".toList = .overrideNote
      ↔ ∃ m, (some [("srv".toList,
            (⟨none, some "npx".toList, none, [], []⟩ : McpServer))]
          : Option (List (Str × McpServer))) = some m
          ∧ containsKey m "srv".toList = true) :=
  ⟨(remove_override_spec [("/w".toList, [])]
      (some [("srv".toList, ⟨none, some "npx".toList, none, [], []⟩)])
      Json.null "/w".toList "srv".toList).1 _ rfl (by decide) (by decide),
   (remove_override_spec [("/w".toList, [])]
      (some [("srv".toList, ⟨none, some "npx".toList, none, [], []⟩)])
      Json.null "/w".toList "srv".toList).2 (by decide)⟩

/-- C8: an add request for a name already effective in the current project
returns the `alreadyEnabled` note outcome: status zero and no registry
read-modify-write (the `added` write-back constructor is not produced). -/
theorem add_already_enabled_spec
    (claude mcpFiles : List (Str × List (Str × McpServer)))
    (localMcp : Option (List (Str × McpServer))) (json : Json)
    (cwd name : Str) (fromHint : Option Str)
    (h : containsKey (get_current_project_mcp_servers claude localMcp cwd) name
        = true) :
    add_mcp_server claude mcpFiles localMcp json cwd name fromHint
      = .alreadyEnabled := by
  unfold add_mcp_server
  simp [h]

/-- Witness for C8: `srv` already enabled via the global registry entry of
the current project. -/
theorem add_already_enabled_spec_witness :
    add_mcp_server
        [("/w".toList, [("srv".toList, ⟨none, some "npx".toList, none, [], []⟩)])]
        [] none Json.null "/w".toList "srv".toList none = .alreadyEnabled :=
  add_already_enabled_spec _ _ _ _ _ _ _ (by decide)

theorem strLe_refl (a : Str) : strLe a a = true := by
  induction a with
  | nil => rfl
  | cons c cs ih => simp [strLe, ih]

theorem strLe_total (a b : Str) : strLe a b = true ∨ strLe b a = true := by
  induction a generalizing b with
  | nil => exact Or.inl rfl
  | cons c cs ih =>
    cases b with
    | nil => exact Or.inr rfl
    | cons d ds =>
      by_cases hcd : c = d
      · subst hcd
        rcases ih ds with h | h
        · exact Or.inl (by simp [strLe, h])
        · exact Or.inr (by simp [strLe, h])
      · rcases lt_trichotomy c d with hlt | heq | hgt
        · exact Or.inl (by simp [strLe, hcd, hlt])
        · exact absurd heq hcd
        · exact Or.inr (by simp [strLe, Ne.symm hcd, hgt])

theorem strLe_trans (a b c : Str) (h1 : strLe a b = true) (h2 : strLe b c = true) :
    strLe a c = true := by
  induction a generalizing b c with
  | nil => rfl
  | cons x xs ih =>
    cases b with
    | nil => simp [strLe] at h1
    | cons y ys =>
      cases c with
      | nil => simp [strLe] at h2
      | cons z zs =>
        by_cases hxy : x = y
        · subst hxy
          by_cases hyz : x = z
          · subst hyz
            simp only [strLe, if_pos rfl] at h1 h2 ⊢
            exact ih ys zs h1 h2
          · simp only [strLe, if_pos rfl] at h1
            simp only [strLe, if_neg hyz] at h2 ⊢
            exact h2
        · by_cases hyz : y = z
          · subst hyz
            simp only [strLe, if_neg hxy] at h1 ⊢
            exact h1
          · simp only [strLe, if_neg hxy] at h1
            simp only [strLe, if_neg hyz] at h2
            have hxz : x < z := lt_trans (of_decide_eq_true h1) (of_decide_eq_true h2)
            simp only [strLe, if_neg (ne_of_lt hxz)]
            exact decide_eq_true hxz

theorem strLe_antisymm (a b : Str) (h1 : strLe a b = true)
    (h2 : strLe b a = true) : a = b := by
  induction a generalizing b with
  | nil =>
    cases b with
    | nil => rfl
    | cons d ds => simp [strLe] at h2
  | cons c cs ih =>
    cases b with
    | nil => simp [strLe] at h1
    | cons d ds =>
      by_cases hcd : c = d
      · subst hcd
        simp only [strLe, if_pos rfl] at h1 h2
        rw [ih ds h1 h2]
      · simp only [strLe, if_neg hcd] at h1
        simp only [strLe, if_neg (Ne.symm hcd)] at h2
        exact absurd (of_decide_eq_true h2) (lt_asymm (of_decide_eq_true h1))

theorem entryLe_trans (a b c : McpEntry) (h1 : entryLe a b = true)
    (h2 : entryLe b c = true) : entryLe a c = true :=
  strLe_trans _ _ _ h1 h2

theorem mem_insertSorted (x z : McpEntry) (l : List McpEntry) :
    z ∈ insertSorted x l ↔ z = x ∨ z ∈ l := by
  induction l with
  | nil => simp [insertSorted]
  | cons y ys ih =>
    by_cases h : entryLe x y
    · rw [insertSorted, if_pos h]
      exact List.mem_cons
    · rw [insertSorted, if_neg h]
      simp only [List.mem_cons, ih]
      tauto

theorem insertSorted_pairwise (x : McpEntry) (l : List McpEntry)
    (hl : l.Pairwise (fun a b => entryLe a b = true)) :
    (insertSorted x l).Pairwise (fun a b => entryLe a b = true) := by
  induction l with
  | nil => simp [insertSorted]
  | cons y ys ih =>
    rcases List.pairwise_cons.mp hl with ⟨hy, hys⟩
    by_cases h : entryLe x y
    · rw [insertSorted, if_pos h]
      refine List.Pairwise.cons ?_ hl
      intro z hz
      rcases List.mem_cons.mp hz with rfl | hz'
      · exact h
      · exact entryLe_trans x y z h (hy z hz')
    · rw [insertSorted, if_neg h]
      refine List.Pairwise.cons ?_ (ih hys)
      intro z hz
      rcases (mem_insertSorted x z ys).mp hz with rfl | hz'
      · rcases strLe_total z.source_project y.source_project with ht | ht
        · exact absurd ht h
        · exact ht
      · exact hy z hz'

theorem sortEntries_pairwise (l : List McpEntry) :
    (sortEntries l).Pairwise (fun a b => entryLe a b = true) := by
  induction l with
  | nil => simp [sortEntries]
  | cons x xs ih => exact insertSorted_pairwise x _ ih

theorem filter_insertSorted_pos (x : McpEntry) (l : List McpEntry) (k : Str)
    (hx : (x.source_project == k) = true) :
    (insertSorted x l).filter (fun e => e.source_project == k)
      = x :: l.filter (fun e => e.source_project == k) := by
  induction l with
  | nil => simp [insertSorted, List.filter, hx]
  | cons y ys ih =>
    by_cases h : entryLe x y
    · rw [insertSorted, if_pos h]
      simp [List.filter_cons, hx]
    · rw [insertSorted, if_neg h]
      have hy : (y.source_project == k) = false := by
        rcases Bool.dichotomy (y.source_project == k) with hf | ht
        · exact hf
        · exfalso
          apply h
          have hxk : x.source_project = k := by simpa using hx
          have hyk : y.source_project = k := by simpa using ht
          show strLe x.source_project y.source_project = true
          rw [hxk, hyk]
          exact strLe_refl k
      simp [List.filter_cons, hy, ih]

theorem filter_insertSorted_neg (x : McpEntry) (l : List McpEntry) (k : Str)
    (hx : (x.source_project == k) = false) :
    (insertSorted x l).filter (fun e => e.source_project == k)
      = l.filter (fun e => e.source_project == k) := by
  induction l with
  | nil => simp [insertSorted, List.filter, hx]
  | cons y ys ih =>
    by_cases h : entryLe x y
    · rw [insertSorted, if_pos h]
      simp [List.filter_cons, hx]
    · rw [insertSorted, if_neg h]
      simp [List.filter_cons, ih]

theorem filter_sortEntries (l : List McpEntry) (k : Str) :
    (sortEntries l).filter (fun e => e.source_project == k)
      = l.filter (fun e => e.source_project == k) := by
  induction l with
  | nil => rfl
  | cons x xs ih =>
    rcases Bool.dichotomy (x.source_project == k) with hf | ht
    · rw [sortEntries, filter_insertSorted_neg _ _ _ hf, ih]
      simp [List.filter_cons, hf]
    · rw [sortEntries, filter_insertSorted_pos _ _ _ ht, ih]
      simp [List.filter_cons, ht]

theorem sorted_eq_of_filter_eq (s s' : List McpEntry)
    (hs : s.Pairwise (fun a b => entryLe a b = true))
    (hs' : s'.Pairwise (fun a b => entryLe a b = true))
    (hf : ∀ k, s.filter (fun e => e.source_project == k)
        = s'.filter (fun e => e.source_project == k)) :
    s = s' := by
  induction s generalizing s' with
  | nil =>
    cases s' with
    | nil => rfl
    | cons h' t' =>
      have hcontr := hf h'.source_project
      rw [List.filter_cons] at hcontr
      simp [beq_self_eq_true] at hcontr
  | cons hd t ih =>
    cases s' with
    | nil =>
      have hcontr := hf hd.source_project
      rw [List.filter_cons] at hcontr
      simp [beq_self_eq_true] at hcontr
    | cons hd' t' =>
      rcases List.pairwise_cons.mp hs with ⟨hht, hts⟩
      rcases List.pairwise_cons.mp hs' with ⟨hht', hts'⟩
      have hkey : hd.source_project = hd'.source_project := by
        by_contra hne
        have hbne : (hd'.source_project == hd.source_project) = false :=
          beq_eq_false_iff_ne.mpr (fun he => hne he.symm)
        have hbne' : (hd.source_project == hd'.source_project) = false :=
          beq_eq_false_iff_ne.mpr hne
        have h1 := hf hd.source_project
        rw [List.filter_cons, List.filter_cons] at h1
        simp only [beq_self_eq_true, if_true, hbne, Bool.false_eq_true,
          if_false] at h1
        have hmem : hd ∈ t' := by
          have hh : hd ∈ t'.filter (fun e => e.source_project == hd.source_project) := by
            rw [← h1]
            exact List.mem_cons_self _ _
          exact (List.mem_filter.mp hh).1
        have hle1 : entryLe hd' hd = true := hht' hd hmem
        have h2 := hf hd'.source_project
        rw [List.filter_cons, List.filter_cons] at h2
        simp only [beq_self_eq_true, if_true, hbne', Bool.false_eq_true,
          if_false] at h2
        have hmem' : hd' ∈ t := by
          have hh : hd' ∈ t.filter (fun e => e.source_project == hd'.source_project) := by
            rw [h2]
            exact List.mem_cons_self _ _
          exact (List.mem_filter.mp hh).1
        have hle2 : entryLe hd hd' = true := hht hd' hmem'
        exact hne (strLe_antisymm _ _ hle2 hle1)
      have h1 := hf hd.source_project
      rw [List.filter_cons, List.filter_cons] at h1
      have hb' : (hd'.source_project == hd.source_project) = true := by
        rw [hkey]
        exact beq_self_eq_true _
      simp only [beq_self_eq_true, if_true, hb'] at h1
      injection h1 with hhd htl
      subst hhd
      have htails : t = t' := by
        refine ih t' hts hts' ?_
        intro k
        by_cases hk : hd.source_project = k
        · subst hk
          exact htl
        · have hall := hf k
          rw [List.filter_cons, List.filter_cons] at hall
          have hbk : (hd.source_project == k) = false := beq_eq_false_iff_ne.mpr hk
          simp only [hbk, Bool.false_eq_true, if_false] at hall
          exact hall
      rw [htails]

theorem filter_keyed_length_le_one {α : Type} (key : α → Str) (l : List α)
    (k : Str) (h : (l.map key).Nodup) :
    (l.filter (fun a => key a == k)).length ≤ 1 := by
  induction l with
  | nil => simp
  | cons e es ih =>
    simp only [List.map_cons, List.nodup_cons] at h
    rcases Bool.dichotomy (key e == k) with hf | ht
    · rw [List.filter_cons]
      simp only [hf, Bool.false_eq_true, if_false]
      exact ih h.2
    · rw [List.filter_cons]
      simp only [ht, if_true]
      have hnil : es.filter (fun a => key a == k) = [] := by
        rw [List.filter_eq_nil_iff]
        intro a ha hak
        have h1 : key a = k := by simpa using hak
        have h2 : key e = k := by simpa using ht
        exact h.1 (by rw [h2, ← h1]; exact List.mem_map_of_mem key ha)
      simp [hnil]

theorem eq_of_perm_length_le_one {α : Type} (l l' : List α) (h : l.Perm l')
    (hl : l'.length ≤ 1) : l = l' := by
  cases l' with
  | nil => exact h.eq_nil
  | cons a t =>
    cases t with
    | nil => exact List.Perm.eq_singleton h
    | cons b t2 => simp at hl

theorem entriesFor_inner_perm (c b : List (Str × List (Str × McpServer)))
    (name : Str)
    (hrel : List.Forall₂ (fun x y => x.1 = y.1 ∧ x.2.Perm y.2) c b)
    (hb : ∀ ps ∈ b, (ps.2.map Prod.fst).Nodup) :
    entriesFor c name = entriesFor b name := by
  induction hrel with
  | nil => rfl
  | cons hxy hrest ih =>
    rename_i x y c' b'
    obtain ⟨hk, hperm⟩ := hxy
    have hfx : x.2.filter (fun ns => ns.1 == name)
        = y.2.filter (fun ns => ns.1 == name) :=
      eq_of_perm_length_le_one _ _ (hperm.filter _)
        (filter_keyed_length_le_one Prod.fst y.2 name (hb y (List.mem_cons_self _ _)))
    simp only [entriesFor, List.flatMap_cons]
    rw [hfx, hk]
    have ih' := ih (fun ps hps => hb ps (List.mem_cons_of_mem _ hps))
    simp only [entriesFor] at ih'
    rw [ih']

theorem entriesFor_keys_sub (src : List (Str × List (Str × McpServer)))
    (name : Str) :
    ∀ e ∈ entriesFor src name, e.source_project ∈ src.map Prod.fst := by
  intro e he
  simp only [entriesFor, List.mem_flatMap] at he
  obtain ⟨ps, hps, hin⟩ := he
  simp only [List.mem_map] at hin
  obtain ⟨ns, _, rfl⟩ := hin
  exact List.mem_map_of_mem Prod.fst hps

theorem entriesFor_keys_nodup (src : List (Str × List (Str × McpServer)))
    (name : Str)
    (ho : (src.map Prod.fst).Nodup)
    (hi : ∀ ps ∈ src, (ps.2.map Prod.fst).Nodup) :
    ((entriesFor src name).map (fun e => e.source_project)).Nodup := by
  induction src with
  | nil => simp [entriesFor]
  | cons ps rest ih =>
    simp only [List.map_cons, List.nodup_cons] at ho
    have hrest := ih ho.2 (fun q hq => hi q (List.mem_cons_of_mem _ hq))
    have hlen := filter_keyed_length_le_one Prod.fst ps.2 name
      (hi ps (List.mem_cons_self _ _))
    simp only [entriesFor, List.flatMap_cons, List.map_append]
    cases hfl : ps.2.filter (fun ns => ns.1 == name) with
    | nil => simpa [entriesFor] using hrest
    | cons n0 nrest =>
      rw [hfl] at hlen
      have hnil : nrest = [] := by
        cases nrest with
        | nil => rfl
        | cons a b => simp at hlen
      subst hnil
      simp only [List.map_cons, List.map_nil, List.cons_append, List.nil_append]
      refine List.nodup_cons.mpr ⟨?_, by simpa [entriesFor] using hrest⟩
      intro hmem
      simp only [List.mem_map] at hmem
      obtain ⟨e, he, hkey⟩ := hmem
      exact ho.1 (hkey ▸ entriesFor_keys_sub rest name e (by
        simpa [entriesFor] using he))

/-- A second run of a source, iterated in a different order: the outer
project list is permuted, and each project's server map is itself iterated
in a permuted order. -/
def SrcEquiv (a b : List (Str × List (Str × McpServer))) : Prop :=
  ∃ c, a.Perm c ∧ List.Forall₂ (fun x y => x.1 = y.1 ∧ x.2.Perm y.2) c b

theorem sortEntries_concat_eq (E1 E1' E2 E2' : List McpEntry)
    (h1 : E1'.Perm E1) (h2 : E2'.Perm E2)
    (hn1 : (E1.map (fun e => e.source_project)).Nodup)
    (hn2 : (E2.map (fun e => e.source_project)).Nodup) :
    sortEntries (E1' ++ E2') = sortEntries (E1 ++ E2) := by
  apply sorted_eq_of_filter_eq _ _ (sortEntries_pairwise _) (sortEntries_pairwise _)
  intro k
  rw [filter_sortEntries, filter_sortEntries, List.filter_append, List.filter_append]
  have e1 : E1'.filter (fun e => e.source_project == k)
      = E1.filter (fun e => e.source_project == k) :=
    eq_of_perm_length_le_one _ _ (h1.filter _)
      (filter_keyed_length_le_one (fun e => e.source_project) E1 k hn1)
  have e2 : E2'.filter (fun e => e.source_project == k)
      = E2.filter (fun e => e.source_project == k) :=
    eq_of_perm_length_le_one _ _ (h2.filter _)
      (filter_keyed_length_le_one (fun e => e.source_project) E2 k hn2)
  rw [e1, e2]

/-- C5: the aggregated sequence for each name is sorted lexicographically by
`source_project`, and aggregation is invariant under re-iterating both
sources in any order (outer project order and inner map order), given the
`HashMap` key-uniqueness of every source map. -/
theorem collect_all_spec
    (claude mcpFiles claude' mcpFiles' : List (Str × List (Str × McpServer)))
    (name : Str)
    (hcn : (claude.map Prod.fst).Nodup)
    (hfn : (mcpFiles.map Prod.fst).Nodup)
    (hci : ∀ ps ∈ claude, (ps.2.map Prod.fst).Nodup)
    (hfi : ∀ ps ∈ mcpFiles, (ps.2.map Prod.fst).Nodup)
    (hce : SrcEquiv claude' claude)
    (hfe : SrcEquiv mcpFiles' mcpFiles) :
    (collect_all_mcp_servers claude mcpFiles name).Pairwise
      (fun a b => strLe a.source_project b.source_project = true)
    ∧ collect_all_mcp_servers claude' mcpFiles' name
        = collect_all_mcp_servers claude mcpFiles name := by
  constructor
  · exact sortEntries_pairwise _
  · obtain ⟨c, hp, hrel⟩ := hce
    obtain ⟨d, hp2, hrel2⟩ := hfe
    have hc : entriesFor c name = entriesFor claude name :=
      entriesFor_inner_perm c claude name hrel hci
    have hd : entriesFor d name = entriesFor mcpFiles name :=
      entriesFor_inner_perm d mcpFiles name hrel2 hfi
    have hperm1 : (entriesFor claude' name).Perm (entriesFor claude name) :=
      hc ▸ List.Perm.flatMap_right _ hp
    have hperm2 : (entriesFor mcpFiles' name).Perm (entriesFor mcpFiles name) :=
      hd ▸ List.Perm.flatMap_right _ hp2
    unfold collect_all_mcp_servers
    exact sortEntries_concat_eq _ _ _ _ hperm1 hperm2
      (entriesFor_keys_nodup claude name hcn hci)
      (entriesFor_keys_nodup mcpFiles name hfn hfi)

/-- Witness for C5: two projects contributing `foo`, iterated in the two
possible orders: the aggregated sequence is sorted and identical. -/
theorem collect_all_spec_witness :
    (collect_all_mcp_servers
        [("/b".toList, [("foo".toList, ⟨none, some "run".toList, none, [], []⟩)]),
         ("/a".toList, [("foo".toList, ⟨none, some "run2".toList, none, [], []⟩)])]
        [] "foo".toList).Pairwise
      (fun a b => strLe a.source_project b.source_project = true)
    ∧ collect_all_mcp_servers
        [("/a".toList, [("foo".toList, ⟨none, some "run2".toList, none, [], []⟩)]),
         ("/b".toList, [("foo".toList, ⟨none, some "run".toList, none, [], []⟩)])]
        [] "foo".toList
      = collect_all_mcp_servers
        [("/b".toList, [("foo".toList, ⟨none, some "run".toList, none, [], []⟩)]),
         ("/a".toList, [("foo".toList, ⟨none, some "run2".toList, none, [], []⟩)])]
        [] "foo".toList :=
  collect_all_spec _ _ _ _ _ (by decide) (by decide) (by decide) (by decide)
    ⟨_, List.Perm.swap _ _ _,
      List.forall₂_same.mpr (fun x _ => ⟨rfl, List.Perm.refl _⟩)⟩
    ⟨[], List.Perm.refl _, List.Forall₂.nil⟩

/-- C9: `configs_differ` returns false for any sequence of zero or one
provenanced records. -/
theorem configs_differ_of_short (entries : List McpEntry)
    (h : entries.length ≤ 1) : configs_differ entries = false := by
  match entries with
  | [] => rfl
  | [_] => rfl
  | _ :: _ :: _ => simp at h

/-- Witness for C9 at a concrete one-record sequence. -/
theorem configs_differ_of_short_witness :
    configs_differ [⟨⟨some "stdio".toList, some "npx".toList, none, [],
      []⟩, "/home/a".toList⟩] = false :=
  configs_differ_of_short _ (by decide)

/-- C2: with no hint, the Resolver fails with `AmbiguousSource` listing every
candidate's source project iff the entry has two or more records and
`configs_differ` holds; otherwise it returns the first record of the
sequence. -/
theorem resolve_no_hint_spec (entries : List McpEntry) (e : McpEntry)
    (rest : List McpEntry) (h : entries = e :: rest) :
    (resolve entries none
        = .error (.AmbiguousSource (entries.map (fun x => x.source_project)))
      ↔ 2 ≤ entries.length ∧ configs_differ entries = true)
    ∧ (¬ (2 ≤ entries.length ∧ configs_differ entries = true) →
        resolve entries none = .ok e) := by
  subst h
  simp only [resolve]
  by_cases hcond : (e :: rest).length > 1 ∧ configs_differ (e :: rest) = true
  · rw [if_pos hcond]
    exact ⟨⟨fun _ => hcond, fun _ => rfl⟩, fun hn => absurd hcond hn⟩
  · rw [if_neg hcond]
    exact ⟨⟨fun heq => Except.noConfusion heq, fun hc => absurd hc hcond⟩,
      fun _ => rfl⟩

/-- Witness for C2: two genuinely differing records are reported ambiguous
with both source projects enumerated. -/
theorem resolve_no_hint_spec_witness :
    resolve [⟨⟨none, some "run-v1".toList, none, [], []⟩, "/A".toList⟩,
             ⟨⟨none, some "run-v2".toList, none, [], []⟩, "/B".toList⟩] none
      = .error (.AmbiguousSource ["/A".toList, "/B".toList]) :=
  (resolve_no_hint_spec _ _ _ rfl).1.mpr (by decide)

/-- C3: with a hint, the Resolver returns the first record (in order) whose
source project contains the hint as a substring, and fails with
`NoMatchingSource` enumerating every record's source project when none
matches. -/
theorem resolve_hint_spec (entries : List McpEntry) (hint : Str) :
    ((∀ e ∈ entries, strContains e.source_project hint = false) →
        resolve entries (some hint)
          = .error (.NoMatchingSource (entries.map (fun x => x.source_project))))
    ∧ (∀ pre e post, entries = pre ++ e :: post →
        (∀ x ∈ pre, strContains x.source_project hint = false) →
        strContains e.source_project hint = true →
        resolve entries (some hint) = .ok e) := by
  constructor
  · intro hall
    have hfind : entries.find? (fun e => strContains e.source_project hint) = none := by
      rw [List.find?_eq_none]
      intro x hx
      simp [hall x hx]
    simp [resolve, hfind]
  · intro pre e post hsplit hpre hmatch
    subst hsplit
    have hfind : (pre ++ e :: post).find? (fun x => strContains x.source_project hint)
        = some e := by
      induction pre with
      | nil =>
        rw [List.nil_append]
        exact List.find?_cons_of_pos _ hmatch
      | cons a as ih =>
        have ha : strContains a.source_project hint = false := hpre a (by simp)
        rw [List.cons_append, List.find?_cons_of_neg _ (by simp [ha])]
        exact ih (fun x hx => hpre x (by simp [hx]))
    simp [resolve, hfind]

/-- Witness for C3: a hint matching only the second record selects it, and a
hint matching no record yields `NoMatchingSource` listing both projects. -/
theorem resolve_hint_spec_witness :
    resolve [⟨⟨none, some "run".toList, none, [], []⟩, "/home/alpha".toList⟩,
             ⟨⟨none, some "run".toList, none, [], []⟩, "/home/beta".toList⟩]
        (some "beta".toList)
      = .ok ⟨⟨none, some "run".toList, none, [], []⟩, "/home/beta".toList⟩
    ∧ resolve [⟨⟨none, some "run".toList, none, [], []⟩, "/home/alpha".toList⟩,
             ⟨⟨none, some "run".toList, none, [], []⟩, "/home/beta".toList⟩]
        (some "gamma".toList)
      = .error (.NoMatchingSource ["/home/alpha".toList, "/home/beta".toList]) :=
  ⟨(resolve_hint_spec _ _).2 [⟨⟨none, some "run".toList, none, [], []⟩,
      "/home/alpha".toList⟩] _ [] rfl (by decide) (by decide),
   (resolve_hint_spec _ _).1 (by decide)⟩

/-- C10: the equivalence check ignores the `type` tag: two records equal in
command, url, normalized arguments and environment but with different
`server_type` values do not differ, and the hint-less Resolver silently
selects the first of them. -/
theorem configs_differ_ignores_server_type (e1 e2 : McpEntry)
    (hc : e2.server.command = e1.server.command)
    (hu : e2.server.url = e1.server.url)
    (ha : normalize_args e2.server.args e2.source_project
        = normalize_args e1.server.args e1.source_project)
    (he : envEq e2.server.env e1.server.env = true)
    (_ht : e1.server.server_type ≠ e2.server.server_type) :
    configs_differ [e1, e2] = false ∧ resolve [e1, e2] none = .ok e1 := by
  have hdiff : configs_differ [e1, e2] = false := by
    simp [configs_differ, hc, hu, ha, he]
  refine ⟨hdiff, ?_⟩
  simp only [resolve]
  rw [if_neg ?_]
  simp [hdiff]

/-- Witness for C10: one record tagged `"stdio"`, the other untagged,
otherwise identical. -/
theorem configs_differ_ignores_server_type_witness :
    configs_differ [⟨⟨some "stdio".toList, some "npx".toList, none, [], []⟩, "/A".toList⟩,
                    ⟨⟨none, some "npx".toList, none, [], []⟩, "/B".toList⟩] = false
    ∧ resolve [⟨⟨some "stdio".toList, some "npx".toList, none, [], []⟩, "/A".toList⟩,
               ⟨⟨none, some "npx".toList, none, [], []⟩, "/B".toList⟩] none
      = .ok ⟨⟨some "stdio".toList, some "npx".toList, none, [], []⟩, "/A".toList⟩ :=
  configs_differ_ignores_server_type _ _ (by decide) (by decide) (by decide)
    (by decide) (by decide)
